import Mathlib

/-!
# delator: validate, resolve, fetch, repair, deduplicate

A shallow embedding of `delator.go` and the properties of its pipeline.

Modelling conventions.

* A Go `string` is the list of its characters (`GoString`).  Every literal the program
  searches for (the two braces, the dot, `a-z`, `0-9`, the hyphen) is ASCII, so on UTF-8 text
  searching bytes and searching characters find the same occurrences.
* A Go `int` is a 64-bit two's complement integer: values are `Int`, and `++` wraps through
  `wrapInt`.  A slice has at most `maxInt` elements.
* A Go `map[string]int` is a total function `GoString → Int`; a key that is absent reads as
  `0`, as in Go.
* The calls whose answer comes from outside the program (`publicsuffix.EffectiveTLDPlusOne`,
  `http.Get`, `json.Unmarshal`) are parameters, collected in `Env`.
* `os.Exit` is the result `Outcome.exit` and a run-time panic is `Outcome.crash`; text
  written to the terminal before either is not modelled.
-/

namespace Delator

/-! ## Strings and the repair of the response body -/

/-- A Go string, as the list of its characters. -/
abbrev GoString := List Char

/-- The library function `strings.Replace(s, old, new, -1)` for a non-empty `old`: scanning
from the left, every occurrence of `old` that does not overlap an earlier replaced one is
replaced by `new`.  The first argument is recursion fuel; `s.length` is always enough. -/
def replaceLoop (old new : GoString) : Nat → GoString → GoString
  | 0, s => s
  | _ + 1, [] => []
  | fuel + 1, c :: cs =>
    if old.isPrefixOf (c :: cs) then
      new ++ replaceLoop old new fuel ((c :: cs).drop old.length)
    else
      c :: replaceLoop old new fuel cs

/-- The call `strings.Replace(s, old, new, -1)`. -/
def stringsReplace (s old new : GoString) : GoString :=
  replaceLoop old new s.length s

/-- The two statements of `fetchData` that repair the body:
`result := strings.Replace(string(body), "}{", "},{", -1)` and
`d := fmt.Sprintf("[%s]", result)`. -/
def repair (body : GoString) : GoString :=
  "[".toList ++ stringsReplace body "\x7d\x7b".toList "\x7d,\x7b".toList ++ "]".toList

/-! ## Records and `printData` -/

/-- The type `Data` of the source: one decoded record. -/
structure Data where
  /-- Field `issuer_ca_id`. -/
  Issuer_ca_id : Int
  /-- Field `issuer_name`. -/
  Issuer_name : GoString
  /-- Field `name_value`. -/
  Name_value : GoString
  /-- Field `min_cert_id`. -/
  Min_cert_id : Int
  /-- Field `min_entry_timestamp`. -/
  Min_entry_timestamp : GoString
  /-- Field `not_after`. -/
  Not_after : GoString
  /-- Field `not_before`. -/
  Not_before : GoString
deriving DecidableEq

/-- The largest value of a Go `int` on a 64-bit platform, which also bounds the length of a
slice. -/
def maxInt : Nat := 2 ^ 63 - 1

/-- Two's complement wrap-around of a Go `int`. -/
def wrapInt (x : Int) : Int := (x + 2 ^ 63) % 2 ^ 64 - 2 ^ 63

/-- The statement `counter[key]++` on a `map[string]int`. -/
def increment (counter : GoString → Int) (key : GoString) : GoString → Int :=
  fun k => if k = key then wrapInt (counter key + 1) else counter k

/-- The loop of `printData`: the values passed to `y.Println`, in the order of the calls. -/
def printDataLoop : (GoString → Int) → List Data → List GoString
  | _, [] => []
  | counter, i :: rest =>
    let counter1 := increment counter i.Name_value
    if counter1 i.Name_value = 1 then
      i.Name_value :: printDataLoop counter1 rest
    else
      printDataLoop counter1 rest

/-- The function `printData`: the values it prints, in order.  `counter` starts as the empty
map. -/
def printData (data : List Data) : List GoString :=
  printDataLoop (fun _ => 0) data

/-- The text that the `Println` calls of `printData` write to standard output: every printed
value followed by a newline (colour escapes are off, as they are whenever the output is not
a terminal). -/
def printDataOutput (data : List Data) : GoString :=
  ((printData data).map (fun s => s ++ ['\n'])).flatten

/-! ## Regular expressions and `validateDomainName` -/

/-- Regular expressions over characters: the fragment of the syntax of Go's `regexp` package
that the pattern of `validateDomainName` uses. -/
inductive Regex where
  /-- Matches no text. -/
  | empty : Regex
  /-- Matches the empty text. -/
  | eps : Regex
  /-- A character class such as `[a-z0-9]`. -/
  | cls : (Char → Bool) → Regex
  /-- Concatenation `r s`. -/
  | seq : Regex → Regex → Regex
  /-- Alternation `r|s`. -/
  | alt : Regex → Regex → Regex
  /-- Repetition `r*`. -/
  | star : Regex → Regex

namespace Regex

/-- The group `(?:r)?`. -/
def opt (r : Regex) : Regex := alt r eps

/-- The group `(?:r)+`. -/
def plus (r : Regex) : Regex := seq r (star r)

/-- The bounded repetition `r{0,n}`. -/
def upTo (r : Regex) : Nat → Regex
  | 0 => eps
  | n + 1 => opt (seq r (upTo r n))

/-- Whether the expression matches the empty text. -/
def nullable : Regex → Bool
  | empty => false
  | eps => true
  | cls _ => false
  | seq r s => nullable r && nullable s
  | alt r s => nullable r || nullable s
  | star _ => true

/-- The derivative: what remains to be matched after reading the character `c`. -/
def deriv : Regex → Char → Regex
  | empty, _ => empty
  | eps, _ => empty
  | cls p, c => if p c then eps else empty
  | seq r s, c => if nullable r then alt (seq (deriv r c) s) (deriv s c) else seq (deriv r c) s
  | alt r s, c => alt (deriv r c) (deriv s c)
  | star r, c => seq (deriv r c) (star r)

/-- Whether the expression matches the whole text. -/
def fullMatch (r : Regex) (s : GoString) : Bool :=
  nullable (s.foldl deriv r)

/-- The texts an expression matches: the usual meaning of a regular expression. -/
def lang : Regex → GoString → Prop
  | empty, _ => False
  | eps, w => w = []
  | cls p, w => ∃ c, p c = true ∧ w = [c]
  | seq r s, w => ∃ u v, lang r u ∧ lang s v ∧ w = u ++ v
  | alt r s, w => lang r w ∨ lang s w
  | star r, w => ∃ L : List GoString, w = L.flatten ∧ ∀ y ∈ L, lang r y

end Regex

/-- The class `[a-z0-9]`. -/
def lowerAlnum (c : Char) : Bool :=
  ('a' ≤ c && c ≤ 'z') || ('0' ≤ c && c ≤ '9')

/-- The class `[a-z0-9-]`. -/
def lowerAlnumHyphen (c : Char) : Bool :=
  ('a' ≤ c && c ≤ 'z') || ('0' ≤ c && c ≤ '9') || c == '-'

/-- The escaped character `\.`. -/
def dot (c : Char) : Bool := c == '.'

open Regex in
/-- The part `[a-z0-9-]{0,61}[a-z0-9]` of the pattern; it occurs twice. -/
def labelTail : Regex := seq (upTo (cls lowerAlnumHyphen) 61) (cls lowerAlnum)

open Regex in
/-- The part `[a-z0-9](?:[a-z0-9-]{0,61}[a-z0-9])?\.` of the pattern. -/
def dottedLabel : Regex := seq (cls lowerAlnum) (seq (opt labelTail) (cls dot))

open Regex in
/-- The part `[a-z0-9][a-z0-9-]{0,61}[a-z0-9]` of the pattern. -/
def finalLabel : Regex := seq (cls lowerAlnum) labelTail

open Regex in
/-- The pattern of `validateDomainName` between its anchors `^` and `$`:
`(?:[a-z0-9](?:[a-z0-9-]{0,61}[a-z0-9])?\.)+[a-z0-9][a-z0-9-]{0,61}[a-z0-9]`. -/
def patternStr : Regex := seq (plus dottedLabel) finalLabel

/-- The function `validateDomainName`: `RegExp.MatchString(domain)`.  The pattern begins with
`^` and ends with `$`, which in Go (no `m` flag) match only at the two ends of the text, so
the call asks whether the whole text matches the expression between them. -/
def validateDomainName (domain : GoString) : Bool :=
  patternStr.fullMatch domain

/-! ## The pipeline -/

/-- How a function of the program ends: it returns a value, it calls `os.Exit`, or it
panics. -/
inductive Outcome (α : Type) where
  /-- The function returned. -/
  | ok : α → Outcome α
  /-- The function called `os.Exit` with this status. -/
  | exit : Int → Outcome α
  /-- The function panicked (a nil pointer was dereferenced); the process ends with
  status 2. -/
  | crash : Outcome α
deriving DecidableEq

/-- The answer of `http.Get`. -/
inductive GetResult where
  /-- A `*url.Error`, with what its methods `Timeout` and `Temporary` say. -/
  | failed (timeout temporary : Bool) : GetResult
  /-- A response, with its status code and the body that `ioutil.ReadAll` reads. -/
  | response (statusCode : Int) (body : GoString) : GetResult

/-- The outside world of one run. -/
structure Env where
  /-- The call `publicsuffix.EffectiveTLDPlusOne(input)`: the string it returns and its error.
  When it reports an error the string is empty. -/
  effectiveTLDPlusOne : GoString → GoString × Option GoString
  /-- The call `http.Get(Url)`. -/
  get : GoString → GetResult
  /-- The call `json.Unmarshal([]byte(d), &keys)` on an empty slice `keys`: the slice after
  the call and the error the call returns. -/
  unmarshal : GoString → List Data × Option GoString
  /-- The call `latest.Check(githubTag, appVersion)`: `none` when the check fails and the
  response is nil, otherwise the field `Outdated` of the response. -/
  latestCheck : Option Bool

/-- The command-line flags. -/
structure Flags where
  /-- The flag `-d`. -/
  domain : GoString
  /-- The flag `-v`. -/
  ver : Bool

/-- The function `setup`.  With `-v` it prints the version and reads `res.Outdated` of the
response of `latest.Check`, whose error is assigned to `_`: a nil response panics, any other
is followed by `os.Exit(1)`.  Without `-v` it exits when no domain is given. -/
def setup (env : Env) (flags : Flags) : Outcome Unit :=
  if flags.ver then
    match env.latestCheck with
    | none => Outcome.crash
    | some _ => Outcome.exit 1
  else if flags.domain = [] then Outcome.exit 1
  else Outcome.ok ()

/-- The function `processInput`.  The error of `EffectiveTLDPlusOne` is assigned to `_`. -/
def processInput (effectiveTLDPlusOne : GoString → GoString × Option GoString)
    (input : GoString) : Outcome GoString :=
  if !validateDomainName input then Outcome.exit 1
  else Outcome.ok ("%.".toList ++ (effectiveTLDPlusOne input).1)

/-- The function `grabUrl`: every `*url.Error` and every status other than 200 goes to
`printError`, which exits with status 1.  The result is the body of the response. -/
def grabUrl (get : GoString → GetResult) (Url : GoString) : Outcome GoString :=
  match get Url with
  | GetResult.failed _ _ => Outcome.exit 1
  | GetResult.response statusCode body =>
    if statusCode ≠ 200 then Outcome.exit 1 else Outcome.ok body

/-- The function `fetchData`: the value of `json.Unmarshal` is not looked at, and `keys` is
returned as the call left it. -/
def fetchData (env : Env) (Url : GoString) : Outcome (List Data) :=
  match grabUrl env.get Url with
  | Outcome.exit code => Outcome.exit code
  | Outcome.crash => Outcome.crash
  | Outcome.ok body => Outcome.ok (env.unmarshal (repair body)).1

/-- The address `fmt.Sprintf("https://crt.sh/?q=%s&output=json", sanitizedDomain)`. -/
def queryUrl (sanitizedDomain : GoString) : GoString :=
  "https://crt.sh/?q=".toList ++ sanitizedDomain ++ "&output=json".toList

/-- The function `main`: the values printed by `printData` when the run ends normally. -/
def main (env : Env) (flags : Flags) : Outcome (List GoString) :=
  match setup env flags with
  | Outcome.exit code => Outcome.exit code
  | Outcome.crash => Outcome.crash
  | Outcome.ok _ =>
    match processInput env.effectiveTLDPlusOne flags.domain with
    | Outcome.exit code => Outcome.exit code
    | Outcome.crash => Outcome.crash
    | Outcome.ok sanitizedDomain =>
      match fetchData env (queryUrl sanitizedDomain) with
      | Outcome.exit code => Outcome.exit code
      | Outcome.crash => Outcome.crash
      | Outcome.ok keys => Outcome.ok (printData keys)

/-! ## The vocabulary of the specification -/

/-- The text `s` has an occurrence of the two-character substring made of a closing brace
and an opening brace. -/
def hasBoundary (s : GoString) : Prop := "\x7d\x7b".toList <:+: s

instance (s : GoString) : Decidable (hasBoundary s) :=
  inferInstanceAs (Decidable ("\x7d\x7b".toList <:+: s))

/-- The body with a comma inserted at every position where a closing brace is directly
followed by an opening brace: the sentence of the specification, read position by position. -/
def insertCommas : GoString → GoString
  | [] => []
  | c :: rest =>
    if c = '}' ∧ rest.head? = some '{' then c :: ',' :: insertCommas rest
    else c :: insertCommas rest

/-- The text of one object of the response: it begins with an opening brace, ends with a
closing brace and has no boundary inside. -/
def isObjectText (s : GoString) : Prop :=
  s.head? = some '{' ∧ s.getLast? = some '}' ∧ ¬ hasBoundary s

instance (s : GoString) : Decidable (isObjectText s) :=
  inferInstanceAs (Decidable (_ ∧ _ ∧ _))

/-- The distinct elements of a list, each kept at its first occurrence. -/
def firstOccurrences : List GoString → List GoString
  | [] => []
  | x :: xs => x :: (firstOccurrences xs).filter (fun y => decide (y ≠ x))

/-- A record with the given `name_value` and the zero value in every other field. -/
def recordNamed (name : GoString) : Data :=
  ⟨0, [], name, 0, [], [], []⟩

/-- The lines of a text: the pieces between newlines, without the empty piece that follows
the last newline. -/
def outputLines (text : GoString) : List GoString :=
  (text.splitOn '\n').dropLast

/-- One label of a domain name, in the words of the specification: 1 to 63 characters, each
of them `a-z`, `0-9` or a hyphen, no hyphen at the beginning or at the end. -/
def isLabel (l : GoString) : Prop :=
  1 ≤ l.length ∧ l.length ≤ 63 ∧ (∀ c ∈ l, lowerAlnumHyphen c = true) ∧
    l.head? ≠ some '-' ∧ l.getLast? ≠ some '-'

instance (l : GoString) : Decidable (isLabel l) :=
  inferInstanceAs (Decidable (_ ∧ _ ∧ _ ∧ _ ∧ _))

/-- The dot-separated labels of a text. -/
def domainLabels (s : GoString) : List GoString := s.splitOn '.'

/-- Domain-name syntax in the words of the specification: one or more labels separated by
single dots, every label well formed, the final label of at least 2 characters. -/
def specDomainSyntax (s : GoString) : Prop :=
  1 ≤ (domainLabels s).length ∧ (∀ l ∈ domainLabels s, isLabel l) ∧
    2 ≤ ((domainLabels s).getLastD []).length

instance (s : GoString) : Decidable (specDomainSyntax s) :=
  inferInstanceAs (Decidable (_ ∧ _ ∧ _))

/-- A run in which the lookup answers as `publicsuffix` does for a name that is itself a
public suffix: an empty string and an error. -/
def suffixEnv : Env where
  effectiveTLDPlusOne := fun _ => ([], some "publicsuffix: cannot derive eTLD+1".toList)
  get := fun _ => GetResult.response 200 []
  unmarshal := fun _ => ([], none)
  latestCheck := some false

/-- A response body with one object whose `issuer_ca_id` is a string instead of a number. -/
def wrongShapeBody : GoString :=
  "\x7b\"issuer_ca_id\":\"x\",\"name_value\":\"a.example.com\"\x7d".toList

/-- A run in which the server answers `wrongShapeBody` and the decoder does what
`encoding/json` does with a field of the wrong type: it skips that field, decodes the rest of
the record into the slice and returns an `UnmarshalTypeError`. -/
def wrongShapeEnv : Env where
  effectiveTLDPlusOne := fun _ => ("example.com".toList, none)
  get := fun _ => GetResult.response 200 wrongShapeBody
  unmarshal := fun _ =>
    ([recordNamed "a.example.com".toList],
      some "json: cannot unmarshal string into Go struct field Data.issuer_ca_id".toList)
  latestCheck := some false

/-- A run in which the server answers a page that is not JSON and the decoder does what
`encoding/json` does with a syntax error: it leaves the slice empty and returns the error. -/
def notJsonEnv : Env where
  effectiveTLDPlusOne := fun _ => ("example.com".toList, none)
  get := fun _ => GetResult.response 200 "<html>busy</html>".toList
  unmarshal := fun _ => ([], some "invalid character looking for beginning of value".toList)
  latestCheck := some false

/-! ## Lists -/

theorem intercalate_append_singleton (sep : Char) (ls : List GoString) (last : GoString) :
    [sep].intercalate (ls ++ [last]) = (ls.map (fun l => l ++ [sep])).flatten ++ last := by
  induction ls with
  | nil => simp [List.intercalate, List.intersperse]
  | cons l rest ih =>
    cases rest with
    | nil => simp [List.intercalate, List.intersperse]
    | cons l2 rest2 =>
      have h : [sep].intercalate (l :: (l2 :: rest2 ++ [last]))
          = l ++ [sep] ++ [sep].intercalate (l2 :: rest2 ++ [last]) := by
        simp [List.intercalate, List.intersperse]
      rw [List.cons_append, h, ih]
      simp

/-! ## The repair step -/

theorem braces_toList : "\x7d\x7b".toList = ['}', '{'] := rfl

theorem insertCommas_boundary (rest : GoString) :
    insertCommas ('}' :: '{' :: rest) = '}' :: ',' :: '{' :: insertCommas rest := by
  simp [insertCommas]

theorem insertCommas_cons_of_ne (c : Char) (rest : GoString)
    (h : ¬ (c = '}' ∧ rest.head? = some '{')) :
    insertCommas (c :: rest) = c :: insertCommas rest := by
  simp only [insertCommas, if_neg h]

theorem isPrefixOf_braces (c : Char) (cs : GoString) :
    "\x7d\x7b".toList.isPrefixOf (c :: cs) = true ↔ c = '}' ∧ cs.head? = some '{' := by
  cases cs with
  | nil =>
    have : "\x7d\x7b".toList.isPrefixOf [c] = false := by
      show (('}' == c) && false) = false
      simp
    simp [this]
  | cons d rest =>
    have : "\x7d\x7b".toList.isPrefixOf (c :: d :: rest) = (('}' == c) && ('{' == d)) := by
      rw [braces_toList]
      simp only [List.isPrefixOf]
      simp
    rw [this]
    simp only [Bool.and_eq_true, beq_iff_eq, List.head?_cons, Option.some.injEq]
    exact ⟨fun h => ⟨h.1.symm, h.2.symm⟩, fun h => ⟨h.1.symm, h.2.symm⟩⟩

theorem replaceLoop_eq_insertCommas (fuel : Nat) (s : GoString) (h : s.length ≤ fuel) :
    replaceLoop "\x7d\x7b".toList "\x7d,\x7b".toList fuel s = insertCommas s := by
  induction fuel generalizing s with
  | zero =>
    have : s = [] := List.length_eq_zero.mp (Nat.le_zero.mp h)
    subst this; rfl
  | succ n ih =>
    cases s with
    | nil => rfl
    | cons c cs =>
      simp only [replaceLoop]
      by_cases hp : "\x7d\x7b".toList.isPrefixOf (c :: cs) = true
      · rw [if_pos hp]
        obtain ⟨hc, hd⟩ := (isPrefixOf_braces c cs).mp hp
        cases cs with
        | nil => simp at hd
        | cons d rest =>
          simp only [List.head?_cons, Option.some.injEq] at hd
          subst hc; subst hd
          rw [insertCommas_boundary]
          have hl : rest.length ≤ n := by simp at h; omega
          have := ih rest hl
          simpa [String.toList] using this
      · rw [if_neg hp]
        rw [insertCommas_cons_of_ne c cs (fun hh => hp ((isPrefixOf_braces c cs).mpr hh))]
        rw [ih cs (by simpa using h)]

theorem stringsReplace_eq_insertCommas (s : GoString) :
    stringsReplace s "\x7d\x7b".toList "\x7d,\x7b".toList = insertCommas s :=
  replaceLoop_eq_insertCommas s.length s le_rfl

theorem repair_eq (body : GoString) : repair body = '[' :: (insertCommas body ++ [']']) := by
  unfold repair
  rw [stringsReplace_eq_insertCommas]
  rfl

theorem hasBoundary_cons (c : Char) (s : GoString) :
    hasBoundary (c :: s) ↔ (c = '}' ∧ s.head? = some '{') ∨ hasBoundary s := by
  unfold hasBoundary
  rw [List.infix_cons_iff]
  constructor
  · rintro (h | h)
    · left
      obtain ⟨t, ht⟩ := h
      simp [String.toList] at ht
      obtain ⟨h1, h2⟩ := ht
      subst h1; subst h2; simp
    · exact Or.inr h
  · rintro (⟨h1, h2⟩ | h)
    · left
      cases s with
      | nil => simp at h2
      | cons d rest =>
        simp at h2; subst h1; subst h2
        exact ⟨rest, by simp [String.toList]⟩
    · exact Or.inr h

theorem not_hasBoundary_nil : ¬ hasBoundary [] := by
  unfold hasBoundary; simp [String.toList]

theorem insertCommas_head (s : GoString) : (insertCommas s).head? = s.head? := by
  cases s with
  | nil => rfl
  | cons c rest => 
    unfold insertCommas; split <;> rfl

theorem not_hasBoundary_insertCommas (s : GoString) : ¬ hasBoundary (insertCommas s) := by
  induction s with
  | nil => exact not_hasBoundary_nil
  | cons c rest ih =>
    by_cases h : c = '}' ∧ rest.head? = some '{'
    · simp only [insertCommas, if_pos h]
      rw [hasBoundary_cons, hasBoundary_cons]
      simp [ih]
    · rw [insertCommas_cons_of_ne c rest h, hasBoundary_cons, insertCommas_head]
      simp [ih, h]

theorem insertCommas_of_not_hasBoundary (s : GoString) (h : ¬ hasBoundary s) :
    insertCommas s = s := by
  induction s with
  | nil => rfl
  | cons c rest ih =>
    rw [hasBoundary_cons, not_or] at h
    rw [insertCommas_cons_of_ne c rest h.1, ih h.2]

theorem hasBoundary_append_singleton (s : GoString) (c : Char) (hc : c ≠ '{') :
    hasBoundary (s ++ [c]) ↔ hasBoundary s := by
  induction s with
  | nil =>
    simp only [List.nil_append, hasBoundary_cons, List.head?_nil]
    simp [not_hasBoundary_nil]
  | cons d rest ih =>
    rw [List.cons_append, hasBoundary_cons, hasBoundary_cons, ih]
    cases rest with
    | nil => simp [hc]
    | cons e rest' => simp

theorem not_hasBoundary_repair (body : GoString) : ¬ hasBoundary (repair body) := by
  rw [repair_eq, hasBoundary_cons, hasBoundary_append_singleton _ _ (by decide)]
  simp [not_hasBoundary_insertCommas]

theorem insertCommas_open (u : GoString) : insertCommas ('{' :: u) = '{' :: insertCommas u :=
  insertCommas_cons_of_ne _ _ (by simp)

theorem insertCommas_append_open (t u : GoString) (hl : t.getLast? = some '}')
    (hb : ¬ hasBoundary t) :
    insertCommas (t ++ '{' :: u) = t ++ ',' :: insertCommas ('{' :: u) := by
  induction t with
  | nil => simp at hl
  | cons c rest ih =>
    cases rest with
    | nil =>
      simp only [List.getLast?_singleton, Option.some.injEq] at hl
      subst hl
      simp [insertCommas_boundary, insertCommas_open]
    | cons d rest' =>
      rw [hasBoundary_cons, not_or] at hb
      rw [List.getLast?_cons_cons] at hl
      have h1 : ¬ (c = '}' ∧ ((d :: rest') ++ '{' :: u).head? = some '{') := by
        simpa using hb.1
      rw [List.cons_append, insertCommas_cons_of_ne c _ h1, ih hl hb.2]
      rfl

theorem insertCommas_objects (strs : List GoString) (hs : ∀ s ∈ strs, isObjectText s)
    (s : GoString) (h : isObjectText s) :
    insertCommas (s ++ strs.flatten) = s ++ strs.flatMap (fun x => ',' :: x) := by
  induction strs generalizing s with
  | nil => simpa using insertCommas_of_not_hasBoundary s h.2.2
  | cons s1 rest ih =>
    have h1 : isObjectText s1 := hs s1 (List.mem_cons_self _ _)
    have hr : ∀ x ∈ rest, isObjectText x := fun x hx => hs x (List.mem_cons_of_mem _ hx)
    obtain ⟨u, hu⟩ : ∃ u, s1 = '{' :: u := by
      cases s1 with
      | nil => have := h1.1; simp at this
      | cons c u => have := h1.1; simp at this; exact ⟨u, by rw [this]⟩
    have key := ih hr s1 h1
    rw [List.flatten_cons, hu, List.cons_append, insertCommas_append_open s _ h.2.1 h.2.2,
      ← List.cons_append, ← hu, key]
    simp [List.flatMap_cons]

theorem intercalate_comma (s : GoString) (strs : List GoString) :
    [','].intercalate (s :: strs) = s ++ strs.flatMap (fun x => ',' :: x) := by
  induction strs generalizing s with
  | nil => simp [List.intercalate]
  | cons s1 rest ih =>
    have := ih s1
    simp only [List.intercalate, List.intersperse, List.flatten_cons] at this ⊢
    rw [this]
    simp [List.flatMap_cons]

theorem repair_objects (strs : List GoString) (hs : ∀ s ∈ strs, isObjectText s) :
    repair strs.flatten = "[".toList ++ ",".toList.intercalate strs ++ "]".toList := by
  rw [repair_eq]
  cases strs with
  | nil => rfl
  | cons s rest =>
    have h := insertCommas_objects rest (fun x hx => hs x (List.mem_cons_of_mem _ hx)) s
      (hs s (List.mem_cons_self _ _))
    rw [List.flatten_cons, h]
    have : ",".toList = [','] := rfl
    rw [this, intercalate_comma]
    rfl

theorem length_intercalate_comma (strs : List GoString) :
    ([','].intercalate strs).length = strs.flatten.length + (strs.length - 1) := by
  cases strs with
  | nil => rfl
  | cons s rest =>
    rw [intercalate_comma]
    simp only [List.length_append, List.flatten_cons, List.length_cons, Nat.add_sub_cancel]
    have : ∀ l : List GoString, (l.flatMap (fun x => ',' :: x)).length = l.flatten.length + l.length := by
      intro l
      induction l with
      | nil => rfl
      | cons a l ih => simp [List.flatMap_cons, ih]; omega
    rw [this]; omega

/-- C2: for every list of N texts that each begin with an opening brace, end with a closing
brace and have no boundary inside, the repair step applied to their concatenation gives `[`,
then the N texts joined by single commas in the same order, then `]`; the result is longer
than the body by the two brackets and exactly N-1 commas. -/
theorem repair_concatenated_objects (strs : List GoString)
    (hs : ∀ s ∈ strs, isObjectText s) :
    repair strs.flatten = "[".toList ++ ",".toList.intercalate strs ++ "]".toList ∧
    (repair strs.flatten).length = strs.flatten.length + 2 + (strs.length - 1) := by
  have h := repair_objects strs hs
  refine ⟨h, ?_⟩
  rw [h]
  have : ",".toList = [','] := rfl
  rw [this]
  simp only [List.length_append, length_intercalate_comma]
  simp [String.toList]
  omega

theorem repair_concatenated_objects_witness :
    (∀ s ∈ ["\x7ba\x7d".toList, "\x7bb\x7d".toList, "\x7bc\x7d".toList], isObjectText s) ∧
    repair ["\x7ba\x7d".toList, "\x7bb\x7d".toList, "\x7bc\x7d".toList].flatten
      = "[".toList
          ++ ",".toList.intercalate ["\x7ba\x7d".toList, "\x7bb\x7d".toList, "\x7bc\x7d".toList]
          ++ "]".toList ∧
    (repair ["\x7ba\x7d".toList, "\x7bb\x7d".toList, "\x7bc\x7d".toList].flatten).length
      = ["\x7ba\x7d".toList, "\x7bb\x7d".toList, "\x7bc\x7d".toList].flatten.length + 2 + (3 - 1) :=
  ⟨by decide, repair_concatenated_objects _ (by decide)⟩

/-- C3: for every body, the repaired text is `[`, then the body with a comma inserted at every
place where a closing brace is directly followed by an opening brace, then `]`; and the
repaired text has no such place left. -/
theorem repair_inserts_comma_at_every_boundary (body : GoString) :
    repair body = "[".toList ++ insertCommas body ++ "]".toList ∧ ¬ hasBoundary (repair body) :=
  ⟨by rw [repair_eq]; rfl, not_hasBoundary_repair body⟩

/-- C4: for every body that has no closing brace directly followed by an opening brace, the
repair step returns `[`, the body unchanged, `]`; for the empty body it returns `[]`. -/
theorem repair_without_boundary (body : GoString) (h : ¬ hasBoundary body) :
    repair body = "[".toList ++ body ++ "]".toList ∧ repair "".toList = "[]".toList := by
  refine ⟨?_, by decide⟩
  rw [repair_eq, insertCommas_of_not_hasBoundary body h]
  rfl

theorem repair_without_boundary_witness :
    ¬ hasBoundary "\x7b\"name_value\":\"a.example.com\"\x7d".toList ∧
    (repair "\x7b\"name_value\":\"a.example.com\"\x7d".toList
        = "[".toList ++ "\x7b\"name_value\":\"a.example.com\"\x7d".toList ++ "]".toList ∧
      repair "".toList = "[]".toList) :=
  ⟨by decide, repair_without_boundary _ (by decide)⟩

/-! ## `printData` -/

theorem wrapInt_of_bounds (x : Int) (h0 : 0 ≤ x) (h1 : x ≤ (maxInt : Int)) : wrapInt x = x := by
  unfold wrapInt
  have hm : (maxInt : Int) = 2 ^ 63 - 1 := by norm_num [maxInt]
  rw [Int.emod_eq_of_lt (by omega) (by omega)]
  omega

theorem mem_firstOccurrences (l : List GoString) (y : GoString) :
    y ∈ firstOccurrences l ↔ y ∈ l := by
  induction l with
  | nil => simp [firstOccurrences]
  | cons x xs ih =>
    simp only [firstOccurrences, List.mem_cons, List.mem_filter, ih, decide_eq_true_eq]
    by_cases h : y = x <;> simp [h]

theorem nodup_firstOccurrences (l : List GoString) : (firstOccurrences l).Nodup := by
  induction l with
  | nil => simp [firstOccurrences]
  | cons x xs ih =>
    simp only [firstOccurrences, List.nodup_cons, List.mem_filter, decide_eq_true_eq]
    exact ⟨fun h => h.2 rfl, ih.filter _⟩

theorem firstOccurrences_append (a b : List GoString) :
    firstOccurrences (a ++ b)
      = firstOccurrences a ++ (firstOccurrences b).filter (fun y => decide (y ∉ a)) := by
  induction a with
  | nil => simp [firstOccurrences]
  | cons x xs ih =>
    rw [List.cons_append]
    simp only [firstOccurrences]
    rw [ih, List.filter_append, List.filter_filter, List.cons_append]
    congr 2
    apply List.filter_congr
    intro y _
    by_cases h : y = x <;> simp [h]

theorem firstOccurrences_append_self (a : List GoString) :
    firstOccurrences (a ++ a) = firstOccurrences a := by
  rw [firstOccurrences_append]
  have : (firstOccurrences a).filter (fun y => decide (y ∉ a)) = [] := by
    rw [List.filter_eq_nil_iff]
    intro y hy
    simpa using (mem_firstOccurrences a y).mp hy
  rw [this, List.append_nil]

theorem printDataLoop_eq (data : List Data) (seen : List GoString) (counter : GoString → Int)
    (hc : ∀ k, counter k = (seen.count k : Int)) (hlen : seen.length + data.length ≤ maxInt) :
    printDataLoop counter data
      = (firstOccurrences (data.map (fun d => d.Name_value))).filter
          (fun y => decide (y ∉ seen)) := by
  induction data generalizing seen counter with
  | nil => simp [printDataLoop, firstOccurrences]
  | cons i rest ih =>
    have hcnt : seen.count i.Name_value ≤ seen.length := List.count_le_length _ _
    simp only [List.length_cons] at hlen
    have hw : wrapInt (counter i.Name_value + 1) = (seen.count i.Name_value : Int) + 1 := by
      rw [hc]
      apply wrapInt_of_bounds
      · omega
      · have : seen.count i.Name_value + 1 ≤ maxInt := by omega
        exact_mod_cast this
    have hc1 : ∀ k, increment counter i.Name_value k
        = ((seen ++ [i.Name_value]).count k : Int) := by
      intro k
      unfold increment
      by_cases hk : k = i.Name_value
      · subst hk
        rw [if_pos rfl, hw]
        simp
      · rw [if_neg hk, hc]
        simp [List.count_append, List.count_cons, Ne.symm hk]
    have hrest := ih (seen ++ [i.Name_value]) (increment counter i.Name_value) hc1
      (by simp only [List.length_append, List.length_singleton]; omega)
    have hfilter : (firstOccurrences (rest.map (fun d => d.Name_value))).filter
          (fun y => decide (y ∉ seen ++ [i.Name_value]))
        = ((firstOccurrences (rest.map (fun d => d.Name_value))).filter
            (fun y => decide (y ≠ i.Name_value))).filter (fun y => decide (y ∉ seen)) := by
      rw [List.filter_filter]
      apply List.filter_congr
      intro y _
      by_cases h : y = i.Name_value <;> simp [h]
    have hone : increment counter i.Name_value i.Name_value = 1 ↔ i.Name_value ∉ seen := by
      rw [hc1]
      simp only [List.count_append, List.count_singleton_self, Nat.cast_add, Nat.cast_one,
        add_left_eq_self, Nat.cast_eq_zero, List.count_eq_zero]
    simp only [printDataLoop, List.map_cons, firstOccurrences]
    by_cases hm : i.Name_value ∈ seen
    · rw [if_neg (fun h => (hone.mp h) hm), hrest, hfilter]
      rw [List.filter_cons_of_neg (by simpa using hm)]
    · rw [if_pos (hone.mpr hm), hrest, hfilter]
      rw [List.filter_cons_of_pos (by simpa using hm)]

theorem printData_eq (data : List Data) (hlen : data.length ≤ maxInt) :
    printData data = firstOccurrences (data.map (fun d => d.Name_value)) := by
  unfold printData
  rw [printDataLoop_eq data [] (fun _ => 0) (by simp) (by simpa using hlen)]
  simp

/-- C1: the values `printData` prints are the distinct `name_value`s of the input in the order
of their first occurrence: the list has no duplicate, has the same members as the input, and
each record adds its value to the output exactly when no earlier record has that value.  For
the names `a.example.com`, `b.example.com`, `a.example.com` the output is `a.example.com`,
`b.example.com`. -/
theorem printData_emits_first_occurrences (data : List Data) (hlen : data.length ≤ maxInt) :
    printData data = firstOccurrences (data.map (fun d => d.Name_value)) ∧
    (printData data).Nodup ∧
    (∀ s, s ∈ printData data ↔ s ∈ data.map (fun d => d.Name_value)) ∧
    (∀ pre d post, data = pre ++ d :: post →
      printData (pre ++ [d]) = printData pre ++
        (if d.Name_value ∈ pre.map (fun d => d.Name_value) then [] else [d.Name_value])) ∧
    printData [recordNamed "a.example.com".toList, recordNamed "b.example.com".toList,
        recordNamed "a.example.com".toList]
      = ["a.example.com".toList, "b.example.com".toList] := by
  have h := printData_eq data hlen
  refine ⟨h, ?_, ?_, ?_, by decide⟩
  · rw [h]; exact nodup_firstOccurrences _
  · intro s; rw [h]; exact mem_firstOccurrences _ s
  · intro pre d post hd
    have hl : (pre ++ [d]).length ≤ maxInt := by
      have : data.length = pre.length + (post.length + 1) := by rw [hd]; simp
      simp only [List.length_append, List.length_singleton]; omega
    have hl2 : pre.length ≤ maxInt := by
      simp only [List.length_append, List.length_singleton] at hl; omega
    rw [printData_eq _ hl, printData_eq _ hl2, List.map_append, firstOccurrences_append]
    by_cases hm : d.Name_value ∈ pre.map (fun d => d.Name_value)
    · rw [if_pos hm]
      simp only [List.map_cons, List.map_nil, firstOccurrences, List.filter_nil]
      rw [List.filter_cons_of_neg (by simpa using hm)]
      simp
    · rw [if_neg hm]
      simp only [List.map_cons, List.map_nil, firstOccurrences, List.filter_nil]
      rw [List.filter_cons_of_pos (by simpa using hm)]
      simp

theorem printData_emits_first_occurrences_witness :
    [recordNamed "b.example.com".toList, recordNamed "a.example.com".toList,
        recordNamed "b.example.com".toList].length ≤ maxInt ∧
    printData [recordNamed "b.example.com".toList, recordNamed "a.example.com".toList,
        recordNamed "b.example.com".toList]
      = firstOccurrences ([recordNamed "b.example.com".toList,
          recordNamed "a.example.com".toList,
          recordNamed "b.example.com".toList].map (fun d => d.Name_value)) :=
  ⟨by decide, (printData_emits_first_occurrences _ (by decide)).1⟩

/-- C5: `printData` on a sequence of records followed by the same sequence again prints the
same values as on the sequence once. -/
theorem printData_twice (xs : List Data) (hlen : (xs ++ xs).length ≤ maxInt) :
    printData (xs ++ xs) = printData xs := by
  have h1 : xs.length ≤ maxInt := by
    simp only [List.length_append] at hlen; omega
  rw [printData_eq _ hlen, printData_eq _ h1, List.map_append, firstOccurrences_append_self]

theorem printData_twice_witness :
    ([recordNamed "a.example.com".toList, recordNamed "b.example.com".toList]
        ++ [recordNamed "a.example.com".toList, recordNamed "b.example.com".toList]).length
      ≤ maxInt ∧
    printData ([recordNamed "a.example.com".toList, recordNamed "b.example.com".toList]
        ++ [recordNamed "a.example.com".toList, recordNamed "b.example.com".toList])
      = printData [recordNamed "a.example.com".toList, recordNamed "b.example.com".toList] :=
  ⟨by decide, printData_twice _ (by decide)⟩

/-- C10, at the failing input: a record whose `name_value` holds the two hostnames `a.com` and
`b.com`, followed by a record for `a.com`.  `printData` compares whole `name_value`s, prints
both, and the line `a.com` occurs twice in its output. -/
theorem printData_output_duplicate_line :
    outputLines (printDataOutput
        [recordNamed "a.com\nb.com".toList, recordNamed "a.com".toList])
      = ["a.com".toList, "b.com".toList, "a.com".toList] ∧
    ¬ (outputLines (printDataOutput
        [recordNamed "a.com\nb.com".toList, recordNamed "a.com".toList])).Nodup := by
  decide

/-! ## `validateDomainName` -/

namespace Regex

theorem lang_seq (r s : Regex) (w : GoString) :
    lang (seq r s) w ↔ ∃ u v, lang r u ∧ lang s v ∧ w = u ++ v := Iff.rfl

theorem lang_alt (r s : Regex) (w : GoString) : lang (alt r s) w ↔ lang r w ∨ lang s w :=
  Iff.rfl

theorem lang_eps (w : GoString) : lang eps w ↔ w = [] := Iff.rfl

theorem lang_cls (p : Char → Bool) (w : GoString) :
    lang (cls p) w ↔ ∃ c, p c = true ∧ w = [c] := Iff.rfl

theorem lang_star (r : Regex) (w : GoString) :
    lang (star r) w ↔ ∃ L : List GoString, w = L.flatten ∧ ∀ y ∈ L, lang r y := Iff.rfl

theorem nullable_iff (r : Regex) : nullable r = true ↔ lang r [] := by
  induction r with
  | empty => simp [nullable, lang]
  | eps => simp [nullable, lang]
  | cls p => simp [nullable, lang]
  | seq r s ihr ihs =>
    simp only [nullable, lang, Bool.and_eq_true, ihr, ihs]
    constructor
    · rintro ⟨h1, h2⟩
      exact ⟨[], [], h1, h2, rfl⟩
    · rintro ⟨u, v, h1, h2, h3⟩
      have h4 := List.append_eq_nil.mp h3.symm
      rw [h4.1] at h1; rw [h4.2] at h2
      exact ⟨h1, h2⟩
  | alt r s ihr ihs => simp only [nullable, lang, Bool.or_eq_true, ihr, ihs]
  | star r _ =>
    simp only [nullable, lang, true_iff]
    exact ⟨[], rfl, fun y hy => by simp at hy⟩

theorem lang_star_cons (r : Regex) (c : Char) (w : GoString) :
    lang (star r) (c :: w) ↔ ∃ u v, lang r (c :: u) ∧ lang (star r) v ∧ w = u ++ v := by
  constructor
  · rintro ⟨L, hL, hall⟩
    induction L with
    | nil => simp at hL
    | cons y L ih =>
      cases y with
      | nil =>
        exact ih (by simpa using hL) (fun z hz => hall z (List.mem_cons_of_mem _ hz))
      | cons d u =>
        simp only [List.flatten_cons, List.cons_append, List.cons.injEq] at hL
        obtain ⟨hd, hw⟩ := hL
        subst hd
        exact ⟨u, L.flatten, hall _ (List.mem_cons_self _ _),
          ⟨L, rfl, fun z hz => hall z (List.mem_cons_of_mem _ hz)⟩, hw⟩
  · rintro ⟨u, v, hu, ⟨L, hL, hall⟩, hw⟩
    refine ⟨(c :: u) :: L, ?_, ?_⟩
    · simp [hw, hL]
    · intro y hy
      rcases List.mem_cons.mp hy with h | h
      · rw [h]; exact hu
      · exact hall y h

theorem deriv_iff (r : Regex) (c : Char) (w : GoString) :
    lang (deriv r c) w ↔ lang r (c :: w) := by
  induction r generalizing w with
  | empty => simp [deriv, lang]
  | eps => simp [deriv, lang]
  | cls p =>
    by_cases h : p c = true
    · simp only [deriv, if_pos h, lang]
      constructor
      · intro hw; exact ⟨c, h, by rw [hw]⟩
      · rintro ⟨d, _, hd⟩
        simp only [List.cons.injEq] at hd
        exact hd.2
    · simp only [deriv, if_neg h, lang, false_iff]
      rintro ⟨d, hd, he⟩
      simp only [List.cons.injEq] at he
      rw [← he.1] at hd
      exact h hd
  | seq r s ihr ihs =>
    have key : lang (seq r s) (c :: w) ↔
        (∃ u v, lang r (c :: u) ∧ lang s v ∧ w = u ++ v) ∨ (lang r [] ∧ lang s (c :: w)) := by
      constructor
      · rintro ⟨u, v, hu, hv, huv⟩
        cases u with
        | nil =>
          right
          simp only [List.nil_append] at huv
          rw [huv]
          exact ⟨hu, hv⟩
        | cons d u =>
          left
          simp only [List.cons_append, List.cons.injEq] at huv
          obtain ⟨hd, hw⟩ := huv
          subst hd
          exact ⟨u, v, hu, hv, hw⟩
      · rintro (⟨u, v, hu, hv, hw⟩ | ⟨h1, h2⟩)
        · exact ⟨c :: u, v, hu, hv, by rw [hw]; rfl⟩
        · exact ⟨[], c :: w, h1, h2, rfl⟩
    rw [key]
    by_cases hn : nullable r = true
    · simp only [deriv, if_pos hn, lang, ihr, ihs]
      have := (nullable_iff r).mp hn
      simp [this]
    · simp only [deriv, if_neg hn, lang, ihr]
      have : ¬ lang r [] := fun h => hn ((nullable_iff r).mpr h)
      simp [this]
  | alt r s ihr ihs => simp only [deriv, lang, ihr, ihs]
  | star r ihr =>
    rw [lang_star_cons]
    simp only [deriv, lang, ihr]

theorem fullMatch_iff (r : Regex) (s : GoString) : fullMatch r s = true ↔ lang r s := by
  unfold fullMatch
  induction s generalizing r with
  | nil => exact nullable_iff r
  | cons c rest ih =>
    rw [List.foldl_cons, ih, deriv_iff]

end Regex

theorem lowerAlnum_iff (c : Char) :
    lowerAlnum c = true ↔ lowerAlnumHyphen c = true ∧ c ≠ '-' := by
  unfold lowerAlnumHyphen lowerAlnum
  by_cases h : c = '-'
  · subst h; decide
  · simp [h]

theorem not_lowerAlnumHyphen_dot : lowerAlnumHyphen '.' = false := by decide

theorem dot_iff (c : Char) : dot c = true ↔ c = '.' := by simp [dot]

open Regex

theorem lang_upTo_cls (p : Char → Bool) (n : Nat) (w : GoString) :
    lang (upTo (cls p) n) w ↔ w.length ≤ n ∧ ∀ c ∈ w, p c = true := by
  induction n generalizing w with
  | zero =>
    simp only [upTo, lang, Nat.le_zero, List.length_eq_zero]
    constructor
    · intro h; subst h; simp
    · intro h; exact h.1
  | succ n ih =>
    simp only [upTo, opt, lang, ih]
    constructor
    · rintro (⟨u, v, ⟨c, hc, hu⟩, ⟨hv1, hv2⟩, hw⟩ | h)
      · subst hu; subst hw
        refine ⟨by simp; omega, ?_⟩
        intro d hd
        rcases List.mem_cons.mp hd with h | h
        · rw [h]; exact hc
        · exact hv2 d h
      · subst h; simp
    · rintro ⟨h1, h2⟩
      cases w with
      | nil => exact Or.inr rfl
      | cons c v =>
        left
        refine ⟨[c], v, ⟨c, h2 c (List.mem_cons_self _ _), rfl⟩, ⟨?_, ?_⟩, rfl⟩
        · simp at h1; omega
        · intro d hd; exact h2 d (List.mem_cons_of_mem _ hd)

/-- What `[a-z0-9-]{0,61}[a-z0-9]` matches. -/
theorem lang_labelTail (w : GoString) :
    lang labelTail w ↔
      1 ≤ w.length ∧ w.length ≤ 62 ∧ (∀ c ∈ w, lowerAlnumHyphen c = true) ∧
        w.getLast? ≠ some '-' := by
  unfold labelTail
  rw [lang_seq]
  simp only [lang_cls, lang_upTo_cls]
  constructor
  · rintro ⟨u, v, ⟨hu1, hu2⟩, ⟨c, hc, hv⟩, hw⟩
    subst hv; subst hw
    have hc2 := (lowerAlnum_iff c).mp hc
    refine ⟨by simp, by simp; omega, ?_, ?_⟩
    · intro d hd
      rcases List.mem_append.mp hd with h | h
      · exact hu2 d h
      · simp at h; rw [h]; exact hc2.1
    · simp [hc2.2]
  · rintro ⟨h1, h2, h3, h4⟩
    have hne : w ≠ [] := by
      intro h; subst h; simp at h1
    refine ⟨w.dropLast, [w.getLast hne], ⟨?_, ?_⟩, ⟨w.getLast hne, ?_, rfl⟩, ?_⟩
    · simp; omega
    · intro d hd; exact h3 d (List.mem_of_mem_dropLast hd)
    · rw [lowerAlnum_iff]
      refine ⟨h3 _ (List.getLast_mem hne), ?_⟩
      intro h
      apply h4
      rw [List.getLast?_eq_getLast _ hne, h]
    · exact (List.dropLast_append_getLast hne).symm

theorem getLast_cons_of_ne_nil (c : Char) (t : GoString) (h : t ≠ []) :
    (c :: t).getLast? = t.getLast? := by
  cases t with
  | nil => exact absurd rfl h
  | cons d t => exact List.getLast?_cons_cons

/-- What `[a-z0-9][a-z0-9-]{0,61}[a-z0-9]`, the final label, matches. -/
theorem lang_finalLabel (w : GoString) :
    lang finalLabel w ↔ isLabel w ∧ 2 ≤ w.length := by
  unfold finalLabel
  rw [lang_seq]
  simp only [lang_cls, lang_labelTail]
  constructor
  · rintro ⟨u, v, ⟨c, hc, hu⟩, ⟨h1, h2, h3, h4⟩, hw⟩
    subst hu; subst hw
    have hc2 := (lowerAlnum_iff c).mp hc
    have hv : v ≠ [] := by intro h; subst h; simp at h1
    refine ⟨⟨by simp, by simp; omega, ?_, ?_, ?_⟩, by simp; omega⟩
    · intro d hd
      rcases List.mem_cons.mp hd with h | h
      · rw [h]; exact hc2.1
      · exact h3 d h
    · simp [hc2.2]
    · rw [List.singleton_append, getLast_cons_of_ne_nil c v hv]; exact h4
  · rintro ⟨⟨h1, h2, h3, h4, h5⟩, h6⟩
    cases w with
    | nil => simp at h1
    | cons c v =>
      have hv : v ≠ [] := by intro h; subst h; simp at h6
      refine ⟨[c], v, ⟨c, ?_, rfl⟩, ⟨?_, ?_, ?_, ?_⟩, rfl⟩
      · rw [lowerAlnum_iff]
        exact ⟨h3 c (List.mem_cons_self _ _), by simpa using h4⟩
      · simp at h6; omega
      · simp at h2; omega
      · intro d hd; exact h3 d (List.mem_cons_of_mem _ hd)
      · rw [getLast_cons_of_ne_nil c v hv] at h5; exact h5

/-- What `[a-z0-9](?:[a-z0-9-]{0,61}[a-z0-9])?\.`, a label and its dot, matches. -/
theorem lang_dottedLabel (w : GoString) :
    lang dottedLabel w ↔ ∃ l, isLabel l ∧ w = l ++ ['.'] := by
  have hfinal : ∀ x, lang (seq (cls lowerAlnum) labelTail) x ↔ isLabel x ∧ 2 ≤ x.length :=
    lang_finalLabel
  unfold dottedLabel
  rw [lang_seq]
  constructor
  · rintro ⟨u, v, hu, hv, hw⟩
    rw [lang_seq] at hv
    obtain ⟨m, d, hm, ⟨e, he, hd⟩, hv⟩ := hv
    rw [dot_iff] at he
    subst he; subst hd; subst hv; subst hw
    refine ⟨u ++ m, ?_, by simp⟩
    rw [opt, lang_alt] at hm
    rcases hm with hm | hm
    · exact ((hfinal (u ++ m)).mp ⟨u, m, hu, hm, rfl⟩).1
    · rw [lang_eps] at hm
      subst hm
      obtain ⟨c, hc, hu⟩ := hu
      subst hu
      have hc2 := (lowerAlnum_iff c).mp hc
      refine ⟨by simp, by simp, ?_, by simp [hc2.2], by simp [hc2.2]⟩
      intro d hd
      simp at hd
      rw [hd]; exact hc2.1
  · rintro ⟨l, hl, hw⟩
    subst hw
    by_cases h2 : 2 ≤ l.length
    · obtain ⟨u, m, hu, hm, hlm⟩ := (hfinal l).mpr ⟨hl, h2⟩
      refine ⟨u, m ++ ['.'], hu, ?_, by rw [hlm]; simp⟩
      exact ⟨m, ['.'], Or.inl hm, ⟨'.', by decide, rfl⟩, rfl⟩
    · obtain ⟨h1, _, h3, h4, _⟩ := hl
      cases l with
      | nil => simp at h1
      | cons c v =>
        have hv : v = [] := by
          cases v with
          | nil => rfl
          | cons d v => simp at h2
        subst hv
        refine ⟨[c], ['.'], ⟨c, ?_, rfl⟩, ?_, rfl⟩
        · rw [lowerAlnum_iff]
          exact ⟨h3 c (List.mem_cons_self _ _), by simpa using h4⟩
        · exact ⟨[], ['.'], Or.inr rfl, ⟨'.', by decide, rfl⟩, rfl⟩

/-- What the pattern matches: one or more labels, each followed by a dot, then a final label
of at least two characters. -/
theorem lang_patternStr (s : GoString) :
    lang patternStr s ↔
      ∃ (labels : List GoString) (last : GoString), labels ≠ [] ∧ (∀ l ∈ labels, isLabel l) ∧
        isLabel last ∧ 2 ≤ last.length ∧
        s = (labels.map (fun l => l ++ ['.'])).flatten ++ last := by
  unfold patternStr
  rw [lang_seq]
  simp only [lang_finalLabel, plus]
  constructor
  · rintro ⟨u, v, hu, ⟨hv1, hv2⟩, hs⟩
    rw [lang_seq] at hu
    obtain ⟨a, b, ha, hb, hab⟩ := hu
    rw [lang_star] at hb
    obtain ⟨L, hL, hall⟩ := hb
    obtain ⟨l0, hl0, ha0⟩ := (lang_dottedLabel a).mp ha
    have hex : ∀ L : List GoString, (∀ y ∈ L, ∃ l, isLabel l ∧ y = l ++ ['.']) →
        ∃ ls : List GoString, (∀ l ∈ ls, isLabel l) ∧ L = ls.map (fun l => l ++ ['.']) := by
      intro L
      induction L with
      | nil => intro _; exact ⟨[], by simp, rfl⟩
      | cons y L ih =>
        intro h
        obtain ⟨l, hl, hy⟩ := h y (List.mem_cons_self _ _)
        obtain ⟨ls, hls, hLs⟩ := ih (fun z hz => h z (List.mem_cons_of_mem _ hz))
        refine ⟨l :: ls, ?_, by rw [hy, hLs]; rfl⟩
        intro x hx
        rcases List.mem_cons.mp hx with h | h
        · rw [h]; exact hl
        · exact hls x h
    obtain ⟨ls, hls, hLs⟩ := hex L (fun y hy => (lang_dottedLabel y).mp (hall y hy))
    refine ⟨l0 :: ls, v, by simp, ?_, hv1, hv2, ?_⟩
    · intro x hx
      rcases List.mem_cons.mp hx with h | h
      · rw [h]; exact hl0
      · exact hls x h
    · rw [hs, hab, ha0, hL, hLs]
      simp
  · rintro ⟨labels, last, hne, hall, hlast, h2, hs⟩
    cases labels with
    | nil => exact absurd rfl hne
    | cons l0 ls =>
      refine ⟨(l0 ++ ['.']) ++ (ls.map (fun l => l ++ ['.'])).flatten, last, ?_, ⟨hlast, h2⟩, ?_⟩
      · refine ⟨l0 ++ ['.'], _, ?_, ?_, rfl⟩
        · exact (lang_dottedLabel _).mpr ⟨l0, hall l0 (List.mem_cons_self _ _), rfl⟩
        · refine ⟨ls.map (fun l => l ++ ['.']), rfl, ?_⟩
          intro y hy
          obtain ⟨l, hl, rfl⟩ := List.mem_map.mp hy
          exact (lang_dottedLabel _).mpr ⟨l, hall l (List.mem_cons_of_mem _ hl), rfl⟩
      · rw [hs]; simp

theorem isLabel_no_dot (l : GoString) (h : isLabel l) : '.' ∉ l := by
  intro hd
  have := h.2.2.1 '.' hd
  rw [not_lowerAlnumHyphen_dot] at this
  exact Bool.noConfusion this

theorem validateDomainName_iff_labels (s : GoString) :
    validateDomainName s = true ↔
      ∃ (labels : List GoString) (last : GoString), labels ≠ [] ∧ (∀ l ∈ labels, isLabel l) ∧
        isLabel last ∧ 2 ≤ last.length ∧
        s = (labels.map (fun l => l ++ ['.'])).flatten ++ last := by
  unfold validateDomainName
  rw [fullMatch_iff, lang_patternStr]

theorem validateDomainName_iff (s : GoString) :
    validateDomainName s = true ↔
      2 ≤ (domainLabels s).length ∧ (∀ l ∈ domainLabels s, isLabel l) ∧
        2 ≤ ((domainLabels s).getLastD []).length := by
  rw [validateDomainName_iff_labels]
  constructor
  · rintro ⟨labels, last, hne, hall, hlast, h2, hs⟩
    have hsplit : domainLabels s = labels ++ [last] := by
      unfold domainLabels
      rw [hs, ← intercalate_append_singleton]
      apply List.splitOn_intercalate
      · intro l hl
        rcases List.mem_append.mp hl with h | h
        · exact isLabel_no_dot l (hall l h)
        · simp at h; rw [h]; exact isLabel_no_dot last hlast
      · simp
    rw [hsplit]
    refine ⟨?_, ?_, ?_⟩
    · have : 1 ≤ labels.length := List.length_pos.mpr hne
      simp; omega
    · intro l hl
      rcases List.mem_append.mp hl with h | h
      · exact hall l h
      · simp at h; rw [h]; exact hlast
    · simpa using h2
  · rintro ⟨hlen, hall, h2⟩
    have hne : domainLabels s ≠ [] := by
      intro h; rw [h] at hlen; simp at hlen
    have hsplit := (List.dropLast_append_getLast hne).symm
    have hlast : (domainLabels s).getLastD [] = (domainLabels s).getLast hne := by
      rw [List.getLastD_eq_getLast?, List.getLast?_eq_getLast _ hne]; rfl
    rw [hlast] at h2
    refine ⟨(domainLabels s).dropLast, (domainLabels s).getLast hne, ?_, ?_, ?_, h2, ?_⟩
    · intro h
      have := congrArg List.length h
      simp at this
      omega
    · intro l hl; exact hall l (List.mem_of_mem_dropLast hl)
    · exact hall _ (List.getLast_mem hne)
    · rw [← intercalate_append_singleton, ← hsplit]
      exact (List.intercalate_splitOn s '.').symm

/-- C6, amended: `validateDomainName` accepts a text exactly when it is two or more labels
separated by single dots, every label made of `a-z`, `0-9` and hyphens, 1 to 63 characters
long, with no hyphen at its beginning or end, and the final label 2 to 63 characters long. -/
theorem validateDomainName_iff_two_or_more_labels (s : GoString) :
    validateDomainName s = true ↔ 2 ≤ (domainLabels s).length ∧ specDomainSyntax s := by
  rw [validateDomainName_iff]
  unfold specDomainSyntax
  constructor
  · rintro ⟨h1, h2, h3⟩; exact ⟨h1, by omega, h2, h3⟩
  · rintro ⟨h1, _, h2, h3⟩; exact ⟨h1, h2, h3⟩

/-- C6, as stated, fails: the single label `com` has the syntax the claim describes and
`validateDomainName` rejects it. -/
theorem validateDomainName_rejects_single_label :
    specDomainSyntax "com".toList ∧ validateDomainName "com".toList = false := by
  decide

/-- C7: `validateDomainName` rejects the empty text, every text that begins with a dot, every
text that ends with a dot, and every text one of whose dot-separated labels is longer than 63
characters. -/
theorem validateDomainName_rejects (s : GoString) :
    validateDomainName [] = false ∧
    validateDomainName ('.' :: s) = false ∧
    validateDomainName (s ++ ['.']) = false ∧
    ((∃ l ∈ domainLabels s, 63 < l.length) → validateDomainName s = false) := by
  refine ⟨by decide, ?_, ?_, ?_⟩
  · rw [Bool.eq_false_iff]
    intro h
    obtain ⟨labels, last, hne, hall, _, _, hs⟩ := (validateDomainName_iff_labels _).mp h
    cases labels with
    | nil => exact hne rfl
    | cons l0 ls =>
      have hl0 := hall l0 (List.mem_cons_self _ _)
      cases l0 with
      | nil => have := hl0.1; simp at this
      | cons c t =>
        simp only [List.map_cons, List.flatten_cons, List.cons_append, List.cons.injEq] at hs
        have := isLabel_no_dot _ hl0
        rw [← hs.1] at this
        simp at this
  · rw [Bool.eq_false_iff]
    intro h
    obtain ⟨labels, last, _, _, hlast, h2, hs⟩ := (validateDomainName_iff_labels _).mp h
    have hne : last ≠ [] := by intro h; rw [h] at h2; simp at h2
    have h3 := congrArg List.getLast? hs
    rw [List.getLast?_append, List.getLast?_append, List.getLast?_eq_getLast _ hne] at h3
    have h4 : '.' = last.getLast hne := by
      simpa [Option.or] using h3
    have := isLabel_no_dot _ hlast
    rw [h4] at this
    exact this (List.getLast_mem hne)
  · rintro ⟨l, hl, hlen⟩
    rw [Bool.eq_false_iff]
    intro h
    have := ((validateDomainName_iff s).mp h).2.1 l hl
    have := this.2.1
    omega

theorem validateDomainName_rejects_witness :
    (∃ l ∈ domainLabels
        "aaaaaaaaaaaaaaaaaaaaaaaaaaaaaaaaaaaaaaaaaaaaaaaaaaaaaaaaaaaaaaaa.com".toList,
      63 < l.length) ∧
    validateDomainName
      "aaaaaaaaaaaaaaaaaaaaaaaaaaaaaaaaaaaaaaaaaaaaaaaaaaaaaaaaaaaaaaaa.com".toList = false :=
  ⟨by decide, (validateDomainName_rejects _).2.2.2 (by decide)⟩

/-! ## The pipeline -/

/-- C8, at the failing input: `co.uk` is accepted by `validateDomainName`, the lookup answers
an empty string and an error, and `processInput` returns the bare prefix `%.` as if nothing
had happened; the run goes on to query with that key and ends normally. -/
theorem processInput_returns_bare_prefix :
    validateDomainName "co.uk".toList = true ∧
    (suffixEnv.effectiveTLDPlusOne "co.uk".toList).2 ≠ none ∧
    processInput suffixEnv.effectiveTLDPlusOne "co.uk".toList = Outcome.ok "%.".toList ∧
    main suffixEnv ⟨"co.uk".toList, false⟩ = Outcome.ok [] := by
  decide

/-- C9, at the failing inputs.  For `wrongShapeBody` the decoder rejects the repaired text, and
`fetchData` returns the record the decoder left in the slice, so the run prints its
`name_value` and ends normally.  For a body that is not JSON the decoder rejects the text,
and the run ends normally with nothing printed.  In neither run is an error raised. -/
theorem main_prints_after_decode_error :
    (wrongShapeEnv.unmarshal (repair wrongShapeBody)).2 ≠ none ∧
    fetchData wrongShapeEnv (queryUrl "%.example.com".toList)
      = Outcome.ok [recordNamed "a.example.com".toList] ∧
    main wrongShapeEnv ⟨"example.com".toList, false⟩
      = Outcome.ok ["a.example.com".toList] ∧
    (notJsonEnv.unmarshal (repair "<html>busy</html>".toList)).2 ≠ none ∧
    main notJsonEnv ⟨"example.com".toList, false⟩ = Outcome.ok [] := by
  decide

end Delator
